import Mathlib

/-!
Verification of the vs-frameblender temporal frame-blending filter
(src/vs-frameblender/main.cpp) against its natural-language specification.

The C++ source is shallowly embedded: machine floats are modelled by exact
rationals (the spec's claims concern rounding direction and clamping, not
float error), machine integers by `Int`/`Nat` with explicit `% 2^w` where
wrap-around matters, pixel planes by functions `Nat → Nat → Int` (row,
column ↦ sample value), and fallible construction by `Except String`.
-/

namespace FrameBlender

/-- A pixel plane: row, column ↦ sample value.  Sample values of a `T`-typed
plane in the source are unsigned machine integers; we embed them in `ℤ`. -/
def Plane : Type := ℕ → ℕ → ℤ

/-- The all-zero plane, used as the out-of-range default when indexing a list
of planes. -/
def zeroPlane : Plane := fun _ _ => 0

/-- Conversion `int(acc)` in C++: conversion from a floating value to `int` truncates
toward zero (floor for nonnegative values, ceiling for negative ones). -/
def ratTrunc (q : ℚ) : ℤ := if 0 ≤ q then ⌊q⌋ else ⌈q⌉

/-- The C++ `std::clamp(v, lo, hi)`: `v < lo ? lo : (hi < v ? hi : v)`. -/
def cppClamp (v lo hi : ℤ) : ℤ := if v < lo then lo else if hi < v then hi else v

/-- Unsigned cast `static_cast<T>(v)` for an unsigned integer type `T` of `tbits` bits:
reduction modulo `2 ^ tbits`. -/
def castT (tbits : ℕ) (v : ℤ) : ℤ := v % 2 ^ tbits

/-- The value `(1U << bits) - 1` computed in 32-bit unsigned arithmetic (main.cpp
line 62, with `bits = d->vi.format->bitsPerSample`). -/
def unsignedMaxVal (bits : ℕ) : ℤ := ((2 ^ bits : ℤ) % 2 ^ 32 - 1) % 2 ^ 32

/-- The inner accumulation loop of `frameBlend` (main.cpp lines 67-70):
`for (i = 0; i < numSrcs; ++i) acc += srcpp[i][w] * weightPercents[i];`
with `numSrcs = weightPercents.size()`, started from `acc = 0`. -/
def blendAcc (srcs : List Plane) (weights : List ℚ) (h w : ℕ) : ℚ :=
  (List.range weights.length).foldl
    (fun acc i => acc + ((srcs.getD i zeroPlane h w : ℤ) : ℚ) * weights.getD i 0) 0

/-- One output sample of `frameBlend<T>` (main.cpp lines 72-73):
`actualAcc = std::clamp(int(acc), 0, int(maxVal)); dstp[w] = static_cast<T>(actualAcc);`
where `maxVal = (1U << bits) - 1` and `T` has `tbits` bits. -/
def blendSample (tbits bits : ℕ) (srcs : List Plane) (weights : List ℚ) (h w : ℕ) : ℤ :=
  castT tbits (cppClamp (ratTrunc (blendAcc srcs weights h w)) 0 (unsignedMaxVal bits))

/-- The double loop of `frameBlend<T>` (main.cpp lines 64-79), producing the
grid of samples written to the destination plane: row `h` of the result is
the row written through `dstp` after `h` stride advances. -/
def frameBlend (tbits bits : ℕ) (srcs : List Plane) (weights : List ℚ)
    (width height : ℕ) : List (List ℤ) :=
  (List.range height).map fun h =>
    (List.range width).map fun w => blendSample tbits bits srcs weights h w

/-- Helper: a `foldl` of successive additions over `List.range n` is the
`Finset.range` sum. -/
theorem foldl_range_add (n : ℕ) (g : ℕ → ℚ) (c : ℚ) :
    (List.range n).foldl (fun acc i => acc + g i) c = c + ∑ i ∈ Finset.range n, g i := by
  induction n generalizing c with
  | zero => simp
  | succ m ih =>
      rw [List.range_succ, List.foldl_append, ih, Finset.sum_range_succ]
      simp [add_assoc]

/-- The accumulator equals the mathematical weighted sum. -/
theorem blendAcc_eq_sum (srcs : List Plane) (weights : List ℚ) (h w : ℕ) :
    blendAcc srcs weights h w =
      ∑ i ∈ Finset.range weights.length,
        ((srcs.getD i zeroPlane h w : ℤ) : ℚ) * weights.getD i 0 := by
  rw [blendAcc, foldl_range_add, zero_add]

/-- Helper: `cppClamp v 0 m` lies in `[0, m]` when `0 ≤ m`. -/
theorem cppClamp_bounds (v m : ℤ) (hm : 0 ≤ m) :
    0 ≤ cppClamp v 0 m ∧ cppClamp v 0 m ≤ m := by
  unfold cppClamp
  split
  · exact ⟨le_refl 0, hm⟩
  · split
    · exact ⟨hm, le_refl m⟩
    · constructor <;> omega

/-- Indexing a mapped range with `getD` below the bound evaluates the map. -/
theorem getD_map_range {α : Type} (n i : ℕ) (f : ℕ → α) (d : α) (hi : i < n) :
    ((List.range n).map f).getD i d = f i := by
  simp [List.getD_eq_getElem?_getD, List.getElem?_map, List.getElem?_range hi]

/-- For the supported bit depths the unsigned `(1U << b) - 1` is `2 ^ b - 1`. -/
theorem unsignedMaxVal_eq (b : ℕ) (hb : b = 8 ∨ b = 16) :
    unsignedMaxVal b = 2 ^ b - 1 := by
  rcases hb with rfl | rfl <;> norm_num [unsignedMaxVal]

/-- C1: every output sample of the blend at position `(row, col)` equals
`clamp(trunc_toward_zero(Σ_i src_i[row][col] * w_i), 0, 2^b - 1)` for bit
depth `b ∈ {8, 16}`, where the rounding truncates toward zero: an
accumulated `-0.4` yields `0` and an accumulated `255.9` yields `255` at
8 bits, not the round-to-nearest values. -/
theorem blend_sample_spec (b : ℕ) (srcs : List Plane) (weights : List ℚ)
    (width height row col : ℕ)
    (hb : b = 8 ∨ b = 16) (hrow : row < height) (hcol : col < width) :
    (((frameBlend b b srcs weights width height).getD row []).getD col 0
      = cppClamp (ratTrunc (∑ i ∈ Finset.range weights.length,
          ((srcs.getD i zeroPlane row col : ℤ) : ℚ) * weights.getD i 0)) 0 (2 ^ b - 1))
    ∧ cppClamp (ratTrunc (-(2/5 : ℚ))) 0 255 = 0
    ∧ cppClamp (ratTrunc (2559/10 : ℚ)) 0 255 = 255 := by
  refine ⟨?_, ?_, ?_⟩
  · rw [frameBlend, getD_map_range height row _ [] hrow, getD_map_range width col _ 0 hcol,
      blendSample, blendAcc_eq_sum, unsignedMaxVal_eq b hb, castT]
    have hpow : (0 : ℤ) < 2 ^ b := pow_pos (by norm_num) b
    have hm : (0 : ℤ) ≤ 2 ^ b - 1 := by omega
    obtain ⟨h0, h1⟩ := cppClamp_bounds
      (ratTrunc (∑ i ∈ Finset.range weights.length,
        ((srcs.getD i zeroPlane row col : ℤ) : ℚ) * weights.getD i 0)) (2 ^ b - 1) hm
    exact Int.emod_eq_of_lt h0 (by omega)
  · have hc : ¬ (0 : ℚ) ≤ -(2/5) := by norm_num
    have hceil : ⌈(-(2/5) : ℚ)⌉ = 0 := by norm_num
    rw [ratTrunc, if_neg hc, hceil]
    decide
  · have hc : (0 : ℚ) ≤ 2559/10 := by norm_num
    have hfloor : ⌊(2559/10 : ℚ)⌋ = 255 := by norm_num
    rw [ratTrunc, if_pos hc, hfloor]
    decide

/-- Concrete instance of `blend_sample_spec`: a 1×1 blend of three constant
8-bit planes with weights `[1/4, 1/2, 1/4]`. -/
theorem blend_sample_spec_witness :
    (((frameBlend 8 8 [fun _ _ => 10, fun _ _ => 20, fun _ _ => 30]
        [1/4, 1/2, 1/4] 1 1).getD 0 []).getD 0 0
      = cppClamp (ratTrunc (∑ i ∈ Finset.range ([1/4, 1/2, 1/4] : List ℚ).length,
          ((([fun _ _ => 10, fun _ _ => 20, fun _ _ => 30] : List Plane).getD
              i zeroPlane 0 0 : ℤ) : ℚ) * ([1/4, 1/2, 1/4] : List ℚ).getD i 0)) 0
          (2 ^ 8 - 1))
    ∧ cppClamp (ratTrunc (-(2/5 : ℚ))) 0 255 = 0
    ∧ cppClamp (ratTrunc (2559/10 : ℚ)) 0 255 = 255 :=
  blend_sample_spec 8 [fun _ _ => 10, fun _ _ => 20, fun _ _ => 30]
    [1/4, 1/2, 1/4] 1 1 0 0 (Or.inl rfl) (by decide) (by decide)

/-- The `INT_MAX` of the 32-bit `int` used for frame numbers. -/
def INT_MAX : ℤ := 2147483647

/-- The fetch loop of `frameBlendGetFrame` (main.cpp lines 98-103): starting
from `fn = n - half`, each iteration fetches frame `max(0, fn)` and then
advances `fn` only while `fn < INT_MAX - 1`. -/
def fetchLoop : ℕ → ℤ → List ℤ
  | 0, _ => []
  | k + 1, fn => max 0 fn :: fetchLoop k (if fn < INT_MAX - 1 then fn + 1 else fn)

/-- The ordered list of source-frame indices fetched for output index `n`
with `numWeights` weights (`half = numWeights / 2`, main.cpp lines 88, 98). -/
def fetchIndices (n : ℤ) (numWeights : ℕ) : List ℤ :=
  fetchLoop numWeights (n - ((numWeights / 2 : ℕ) : ℤ))

/-- Characterization of the fetch loop: starting at `fn ≤ INT_MAX - 1`, the
`i`-th fetched index is `max 0 (min (fn + i) (INT_MAX - 1))`. -/
theorem fetchLoop_spec (k : ℕ) (fn : ℤ) (hfn : fn ≤ INT_MAX - 1) :
    (fetchLoop k fn).length = k ∧
    ∀ i < k, (fetchLoop k fn).getD i 0 = max 0 (min (fn + i) (INT_MAX - 1)) := by
  induction k generalizing fn with
  | zero => simp [fetchLoop]
  | succ m ih =>
      rw [fetchLoop]
      by_cases hlt : fn < INT_MAX - 1
      · rw [if_pos hlt]
        obtain ⟨hlen, hget⟩ := ih (fn + 1) (by omega)
        refine ⟨by simp [hlen], ?_⟩
        intro i hi
        match i with
        | 0 => simp; omega
        | j + 1 =>
            rw [List.getD_cons_succ, hget j (by omega)]
            push_cast
            congr 1
            omega
      · rw [if_neg hlt]
        have hfneq : fn = INT_MAX - 1 := by omega
        obtain ⟨hlen, hget⟩ := ih fn hfn
        refine ⟨by simp [hlen], ?_⟩
        intro i hi
        match i with
        | 0 => simp; omega
        | j + 1 =>
            rw [List.getD_cons_succ, hget j (by omega)]
            have hj : (0 : ℤ) ≤ (j : ℤ) := Int.natCast_nonneg j
            push_cast
            omega

/-- C2: for output index `n` (an addressable index, so `n ≤ INT_MAX - 1`)
and odd weight count `k`, the fetch phase retrieves exactly `k` frames, in
order, at indices `n - k/2 + i` clamped below at `0` and capped above at the
sentinel `INT_MAX - 1`; in particular `n = 5, k = 3` yields `[4, 5, 6]` and
`n = 0, k = 3` yields `[0, 0, 1]`. -/
theorem fetch_window_spec (n : ℤ) (k : ℕ) (hk : Odd k) (hn0 : 0 ≤ n)
    (hn : n ≤ INT_MAX - 1) :
    ((fetchIndices n k).length = k ∧
     ∀ i < k, (fetchIndices n k).getD i 0 =
        max 0 (min (n - ((k / 2 : ℕ) : ℤ) + (i : ℤ)) (INT_MAX - 1)))
    ∧ fetchIndices 5 3 = [4, 5, 6]
    ∧ fetchIndices 0 3 = [0, 0, 1] := by
  refine ⟨?_, by decide, by decide⟩
  have hhalf : (0 : ℤ) ≤ ((k / 2 : ℕ) : ℤ) := Int.natCast_nonneg _
  exact fetchLoop_spec k (n - ((k / 2 : ℕ) : ℤ)) (by omega)

/-- Concrete instance of `fetch_window_spec` at `n = 5`, `k = 3`. -/
theorem fetch_window_spec_witness :
    (((fetchIndices 5 3).length = 3 ∧
     ∀ i < 3, (fetchIndices 5 3).getD i 0 =
        max 0 (min (5 - ((3 / 2 : ℕ) : ℤ) + (i : ℤ)) (INT_MAX - 1)))
    ∧ fetchIndices 5 3 = [4, 5, 6]
    ∧ fetchIndices 0 3 = [0, 0, 1]) :=
  fetch_window_spec 5 3 (by decide) (by decide) (by decide)

/-- Weight normalization in `frameBlendCreate` (main.cpp lines 161-167):
`totalWeights` is accumulated by a loop over the raw weights, then each raw
weight divided by it is pushed in order. -/
def normalizeWeights (raw : List ℚ) : List ℚ :=
  let totalWeights := raw.foldl (· + ·) 0
  raw.map (fun w => w / totalWeights)

/-- Helper: left-folding addition from `c` adds the list sum to `c`. -/
theorem foldl_add_eq_sum (l : List ℚ) (c : ℚ) : l.foldl (· + ·) c = c + l.sum := by
  induction l generalizing c with
  | nil => simp
  | cons a t ih => rw [List.foldl_cons, ih, List.sum_cons]; ring

/-- C3: for every raw weight sequence of odd length with nonzero sum,
normalization keeps length and order and maps the `i`-th raw weight to
`rawWeights[i] / total`. -/
theorem normalize_spec (raw : List ℚ) (hodd : Odd raw.length) (hnz : raw.sum ≠ 0) :
    (normalizeWeights raw).length = raw.length ∧
    ∀ i < raw.length, (normalizeWeights raw).getD i 0 = raw.getD i 0 / raw.sum := by
  have htot : raw.foldl (· + ·) 0 = raw.sum := by rw [foldl_add_eq_sum, zero_add]
  constructor
  · simp [normalizeWeights]
  · intro i hi
    rw [normalizeWeights]
    simp only [htot, List.getD_eq_getElem?_getD, List.getElem?_map,
      List.getElem?_eq_getElem hi]
    simp

/-- Concrete instance of `normalize_spec` at `raw = [1, 2, 1]`. -/
theorem normalize_spec_witness :
    (normalizeWeights [1, 2, 1]).length = ([1, 2, 1] : List ℚ).length ∧
    ∀ i < ([1, 2, 1] : List ℚ).length,
      (normalizeWeights [1, 2, 1]).getD i 0 =
        ([1, 2, 1] : List ℚ).getD i 0 / ([1, 2, 1] : List ℚ).sum :=
  normalize_spec [1, 2, 1] (by decide) (by norm_num)

/-- The validation loop of `getPlanesArg` (main.cpp lines 20-30): each plane
index must be in `[0, 3)` and must not hit an already-set mask entry;
otherwise the mask entry is set. -/
def planesLoop : List ℤ → List Bool → Except String (List Bool)
  | [], process => .ok process
  | o :: rest, process =>
    if o < 0 ∨ 3 ≤ o then .error "plane index out of range"
    else if process.getD o.toNat false then .error "plane specified twice"
    else planesLoop rest (process.set o.toNat true)

/-- Function `getPlanesArg` (main.cpp lines 14-31): the mask starts all-true when the
`planes` property is absent or empty (`m <= 0`) and all-false otherwise,
then the index loop runs. -/
def getPlanesArg (planes : List ℤ) : Except String (List Bool) :=
  planesLoop planes (List.replicate 3 (decide (planes.length = 0)))

/-- Helper: `getD` after `set` at the same position, within bounds. -/
theorem getD_set_eq (l : List Bool) (i : ℕ) (b : Bool) (hi : i < l.length) :
    (l.set i b).getD i false = b := by
  induction l generalizing i with
  | nil => simp at hi
  | cons a t ih =>
      match i with
      | 0 => simp [List.set]
      | j + 1 => simpa [List.set] using ih j (by simpa using hi)

/-- Helper: `getD` after `set` at a different position. -/
theorem getD_set_ne (l : List Bool) (i j : ℕ) (b : Bool) (hij : i ≠ j) :
    (l.set i b).getD j false = l.getD j false := by
  induction l generalizing i j with
  | nil => simp [List.set]
  | cons a t ih =>
      match i, j with
      | 0, 0 => omega
      | 0, k + 1 => simp [List.set]
      | m + 1, 0 => simp [List.set]
      | m + 1, k + 1 => simpa [List.set] using ih m k (by omega)

/-- Helper: a successful `planesLoop` run implies every index was in range,
hit a fresh mask entry, and appeared only once. -/
theorem planesLoop_ok_valid (xs : List ℤ) (process m : List Bool)
    (hlen : process.length = 3) (h : planesLoop xs process = .ok m) :
    (∀ o ∈ xs, 0 ≤ o ∧ o < 3) ∧
    (∀ o ∈ xs, process.getD o.toNat false = false) ∧ xs.Nodup := by
  induction xs generalizing process with
  | nil => simp
  | cons o rest ih =>
      rw [planesLoop] at h
      by_cases h1 : o < 0 ∨ 3 ≤ o
      · rw [if_pos h1] at h; exact absurd h (by simp)
      · rw [if_neg h1] at h
        push_neg at h1
        by_cases h2 : process.getD o.toNat false = true
        · rw [if_pos h2] at h; exact absurd h (by simp)
        · rw [if_neg h2] at h
          have hoNat : o.toNat < 3 := by omega
          obtain ⟨ihr, ihf, ihn⟩ := ih (process.set o.toNat true) (by simp [hlen]) h
          refine ⟨?_, ?_, ?_⟩
          · intro o' ho'
            rcases List.mem_cons.mp ho' with rfl | hmem
            · exact ⟨h1.1, h1.2⟩
            · exact ihr o' hmem
          · intro o' ho'
            rcases List.mem_cons.mp ho' with rfl | hmem
            · exact Bool.not_eq_true _ ▸ (by simpa using h2)
            · have hne : o.toNat ≠ o'.toNat := by
                intro heq
                have := ihf o' hmem
                rw [← heq, getD_set_eq process o.toNat true (by omega)] at this
                exact Bool.true_eq_false.mp this
              have := ihf o' hmem
              rwa [getD_set_ne process o.toNat o'.toNat true hne] at this
          · refine List.nodup_cons.mpr ⟨?_, ihn⟩
            intro hmem
            have := ihf o hmem
            rw [getD_set_eq process o.toNat true (by omega)] at this
            exact Bool.true_eq_false.mp this

/-- Helper: on in-range, duplicate-free input whose entries hit fresh mask
slots, `planesLoop` succeeds and sets exactly the referenced entries. -/
theorem planesLoop_ok_of_valid (xs : List ℤ) (process : List Bool)
    (hlen : process.length = 3)
    (hrange : ∀ o ∈ xs, 0 ≤ o ∧ o < 3) (hnodup : xs.Nodup)
    (hfresh : ∀ o ∈ xs, process.getD o.toNat false = false) :
    ∃ m, planesLoop xs process = .ok m ∧ m.length = 3 ∧
      ∀ j : ℕ, m.getD j false = (process.getD j false || decide ((j : ℤ) ∈ xs)) := by
  induction xs generalizing process with
  | nil => exact ⟨process, rfl, hlen, by simp⟩
  | cons o rest ih =>
      have ho := hrange o (List.mem_cons_self o rest)
      have hoNat : o.toNat < 3 := by omega
      have hoZ : (o.toNat : ℤ) = o := Int.toNat_of_nonneg ho.1
      have hfo := hfresh o (List.mem_cons_self o rest)
      have hnotmem : o ∉ rest := (List.nodup_cons.mp hnodup).1
      rw [planesLoop, if_neg (by omega), if_neg (by rw [hfo]; simp)]
      obtain ⟨m, heq, hm3, hget⟩ := ih (process.set o.toNat true) (by simp [hlen])
        (fun o' ho' => hrange o' (List.mem_cons_of_mem o ho'))
        (List.nodup_cons.mp hnodup).2
        (fun o' ho' => by
          have hr := hrange o' (List.mem_cons_of_mem o ho')
          have hne : o.toNat ≠ o'.toNat := by
            intro hkeq
            have heqo : o = o' := by omega
            exact hnotmem (heqo ▸ ho')
          rw [getD_set_ne process o.toNat o'.toNat true hne]
          exact hfresh o' (List.mem_cons_of_mem o ho'))
      refine ⟨m, heq, hm3, fun j => ?_⟩
      rw [hget j]
      by_cases hj : j = o.toNat
      · subst hj
        rw [getD_set_eq process o.toNat true (by omega), hoZ]
        have hmem : o ∈ o :: rest := List.mem_cons_self o rest
        simp [hmem]
      · rw [getD_set_ne process o.toNat j true (fun heq => hj heq.symm)]
        have hiff : ((j : ℤ) ∈ o :: rest) ↔ ((j : ℤ) ∈ rest) := by
          rw [List.mem_cons]
          constructor
          · rintro (heq | hmem)
            · exact absurd (by omega : j = o.toNat) hj
            · exact hmem
          · exact Or.inr
        simp only [hiff]

/-- Helper: `getD` of an all-false mask is false at every position. -/
theorem getD_replicate_false (k j : ℕ) :
    (List.replicate k false).getD j false = false := by
  induction k generalizing j with
  | zero => simp [List.getD]
  | succ n ih =>
      match j with
      | 0 => simp [List.replicate]
      | i + 1 => simpa [List.replicate] using ih i

/-- C5: with `numPlanes = 3`, an empty plane-index sequence yields the mask
`{true, true, true}`; any index outside `[0, 3)` makes the selector fail; any
repeated index makes it fail; otherwise the mask is true exactly at the
referenced plane positions and false elsewhere. -/
theorem getPlanesArg_spec :
    (getPlanesArg [] = .ok [true, true, true]) ∧
    (∀ xs : List ℤ, (∃ o ∈ xs, o < 0 ∨ 3 ≤ o) → ∃ e, getPlanesArg xs = .error e) ∧
    (∀ xs : List ℤ, ¬ xs.Nodup → ∃ e, getPlanesArg xs = .error e) ∧
    (∀ xs : List ℤ, xs ≠ [] → (∀ o ∈ xs, 0 ≤ o ∧ o < 3) → xs.Nodup →
      ∃ m, getPlanesArg xs = .ok m ∧ m.length = 3 ∧
        ∀ j : ℕ, m.getD j false = decide ((j : ℤ) ∈ xs)) := by
  refine ⟨rfl, ?_, ?_, ?_⟩
  · intro xs ⟨o, hmem, hbad⟩
    match hres : getPlanesArg xs with
    | .error e => exact ⟨e, rfl⟩
    | .ok m =>
        obtain ⟨hrange, _, _⟩ := planesLoop_ok_valid xs _ m (by simp) hres
        have := hrange o hmem
        omega
  · intro xs hdup
    match hres : getPlanesArg xs with
    | .error e => exact ⟨e, rfl⟩
    | .ok m =>
        obtain ⟨_, _, hnd⟩ := planesLoop_ok_valid xs _ m (by simp) hres
        exact absurd hnd hdup
  · intro xs hne hrange hnodup
    have hlen0 : ¬ xs.length = 0 := fun h => hne (List.length_eq_zero.mp h)
    have hinit : List.replicate 3 (decide (xs.length = 0)) = List.replicate 3 false := by
      simp [hlen0]
    obtain ⟨m, heq, hm3, hget⟩ := planesLoop_ok_of_valid xs
      (List.replicate 3 false) (by simp) hrange hnodup
      (fun o _ => getD_replicate_false 3 o.toNat)
    refine ⟨m, ?_, hm3, fun j => ?_⟩
    · rw [getPlanesArg, hinit]
      exact heq
    · rw [hget j, getD_replicate_false 3 j, Bool.false_or]

/-- Concrete instance of `getPlanesArg_spec`: the valid selection `[1]`. -/
theorem getPlanesArg_spec_witness :
    ∃ m, getPlanesArg [1] = .ok m ∧ m.length = 3 ∧
      ∀ j : ℕ, m.getD j false = decide ((j : ℤ) ∈ ([1] : List ℤ)) :=
  getPlanesArg_spec.2.2.2 [1] (by decide) (by decide) (by decide)

/-- The fields of `VSFormat` consulted by the filter. -/
structure VSFormat where
  numPlanes : ℕ
  bitsPerSample : ℕ
  bytesPerSample : ℕ
deriving DecidableEq

/-- The per-instance filter state (main.cpp lines 34-39).  `viFormat` is
`d->vi.format`, which is a null pointer (`none`) when the clip's format is
variable. -/
structure FrameBlendData where
  viFormat : Option VSFormat
  weightPercents : List ℚ
  process : List Bool
deriving DecidableEq

/-- Constructor `frameBlendCreate` (main.cpp lines 150-187): the odd-count check runs
first; every thrown configuration error is surfaced as a message prefixed
with the filter name and no filter instance is created. -/
def frameBlendCreate (viFormat : Option VSFormat) (weights : List ℚ)
    (planes : List ℤ) : Except String FrameBlendData :=
  if weights.length % 2 ≠ 1 then
    .error ("FrameBlend: " ++ "Number of weights must be odd")
  else
    let weightPercents := normalizeWeights weights
    match getPlanesArg planes with
    | .error e => .error ("FrameBlend: " ++ e)
    | .ok process => .ok ⟨viFormat, weightPercents, process⟩

/-- C4: for every raw weight list of even length (including lengths 0 and 2),
construction fails with a configuration error whose message is prefixed with
the filter's name, and no filter instance is created. -/
theorem create_even_weights_fails (viFormat : Option VSFormat) (weights : List ℚ)
    (planes : List ℤ) (h : weights.length % 2 = 0) :
    frameBlendCreate viFormat weights planes =
      .error ("FrameBlend: " ++ "Number of weights must be odd") ∧
    ∀ d, frameBlendCreate viFormat weights planes ≠ .ok d := by
  have hodd : weights.length % 2 ≠ 1 := by omega
  refine ⟨?_, ?_⟩
  · rw [frameBlendCreate, if_pos hodd]
  · intro d
    rw [frameBlendCreate, if_pos hodd]
    simp

/-- Concrete instance of `create_even_weights_fails` at the length-2 list
`[1, 2]`. -/
theorem create_even_weights_fails_witness :
    frameBlendCreate none [1, 2] [] =
      .error ("FrameBlend: " ++ "Number of weights must be odd") ∧
    ∀ d, frameBlendCreate none [1, 2] [] ≠ .ok d :=
  create_even_weights_fails none [1, 2] [] (by decide)

/-- A video frame: its format descriptor and per-plane sample content. -/
structure VSFrame where
  format : VSFormat
  plane : ℕ → Plane

instance : Inhabited VSFrame := ⟨{ format := ⟨0, 0, 0⟩, plane := fun _ => zeroPlane }⟩

/-- The center pick `frames[frames.size() / 2]` (main.cpp line 106): the center source
frame. -/
def centerFrame (frames : List VSFrame) : VSFrame :=
  frames.getD (frames.length / 2) default

/-- The `fr` array built at main.cpp lines 110-114:
`fr[i] = process[i] ? nullptr : center`. -/
def frReuse (process : List Bool) (center : VSFrame) : ℕ → Option VSFrame :=
  fun i => if process.getD i false then none else some center

/-- Modelled from the spec: the external frame-construction collaborator
`newVideoFrame2` (main.cpp line 117).  Per the spec's frame-construction
interface, a plane whose `fr` entry is non-null shares that frame's plane
buffer; a null entry gets a fresh allocation (`fresh` stands for the
uninitialized buffer contents). -/
def newVideoFrame2 (fi : VSFormat) (fr : ℕ → Option VSFrame) (fresh : ℕ → Plane) :
    VSFrame :=
  { format := fi
    plane := fun p =>
      match fr p with
      | some f => f.plane p
      | none => fresh p }

/-- Overwriting one plane of a frame with freshly computed content. -/
def writePlane (f : VSFrame) (p : ℕ) (content : Plane) : VSFrame :=
  { f with plane := fun q => if q = p then content else f.plane q }

/-- The text of the `mtFatal` diagnostic logged at main.cpp line 126. -/
def fatalMsg : String := "msg tekno and tell him to fix :alien:"

/-- Static depth `d->vi.format->bitsPerSample` (main.cpp line 62); dereferencing the null
format of a variable-format clip is undefined, modelled by `0`. -/
def staticBits (d : FrameBlendData) : ℕ :=
  match d.viFormat with
  | some f => f.bitsPerSample
  | none => 0

/-- The destination plane content produced by `frameBlend<T>` for plane `p`,
with `T` of `tbits` bits. -/
def blendedContent (d : FrameBlendData) (tbits : ℕ) (frames : List VSFrame)
    (p : ℕ) : Plane :=
  fun h w =>
    blendSample tbits (staticBits d) (frames.map (fun f => f.plane p))
      d.weightPercents h w

/-- The plane loop of `frameBlendGetFrame` (main.cpp lines 118-130): selected
planes are blended at 8 or 16 bits per sample according to the delivered
frame's `bytesPerSample`; any other width logs the fatal diagnostic and
returns no frame (modelled by `.error fatalMsg`). -/
def planeLoop (d : FrameBlendData) (frames : List VSFrame) (fi : VSFormat) :
    List ℕ → VSFrame → Except String VSFrame
  | [], dst => .ok dst
  | p :: rest, dst =>
    if d.process.getD p false then
      if fi.bytesPerSample = 1 then
        planeLoop d frames fi rest (writePlane dst p (blendedContent d 8 frames p))
      else if fi.bytesPerSample = 2 then
        planeLoop d frames fi rest (writePlane dst p (blendedContent d 16 frames p))
      else .error fatalMsg
    else planeLoop d frames fi rest dst

/-- The `arAllFramesReady` phase of `frameBlendGetFrame` (main.cpp lines
95-135) after the source frames have been gathered: pick the center frame,
build the destination with per-plane reuse of unselected planes, then run
the plane loop. -/
def readyPhase (d : FrameBlendData) (frames : List VSFrame) (fresh : ℕ → Plane) :
    Except String VSFrame :=
  let center := centerFrame frames
  let fi := center.format
  planeLoop d frames fi (List.range fi.numPlanes)
    (newVideoFrame2 fi (frReuse d.process center) fresh)

/-- The planes the loop hands to the per-pixel blend: the selected planes
among `0 .. numPlanes - 1`. -/
def blendedPlaneList (d : FrameBlendData) (fi : VSFormat) : List ℕ :=
  (List.range fi.numPlanes).filter (fun q => d.process.getD q false)

/-- Helper: the plane loop never touches a plane whose selection flag is
false. -/
theorem planeLoop_preserves (d : FrameBlendData) (frames : List VSFrame)
    (fi : VSFormat) (p : ℕ) (hp : d.process.getD p false = false) :
    ∀ (planes : List ℕ) (dst out : VSFrame),
      planeLoop d frames fi planes dst = .ok out → out.plane p = dst.plane p := by
  intro planes
  induction planes with
  | nil =>
      intro dst out h
      rw [planeLoop] at h
      injection h with h'
      rw [← h']
  | cons q rest ih =>
      intro dst out h
      rw [planeLoop] at h
      by_cases hq : d.process.getD q false = true
      · rw [if_pos hq] at h
        have hqp : p ≠ q := fun heq => by
          rw [← heq, hp] at hq
          exact Bool.false_ne_true hq
        by_cases h1 : fi.bytesPerSample = 1
        · rw [if_pos h1] at h
          rw [ih _ _ h]
          simp [writePlane, hqp]
        · rw [if_neg h1] at h
          by_cases h2 : fi.bytesPerSample = 2
          · rw [if_pos h2] at h
            rw [ih _ _ h]
            simp [writePlane, hqp]
          · rw [if_neg h2] at h
            exact absurd h (by simp)
      · rw [if_neg hq] at h
        exact ih _ _ h

/-- C6: a plane whose selection flag is false is never handed to the
per-pixel blend; its `fr` entry is the center frame itself (direct buffer
reuse, no per-pixel copy), and in any produced output frame its content is
the center frame's plane content. -/
theorem unselected_plane_passthrough (d : FrameBlendData) (frames : List VSFrame)
    (fresh : ℕ → Plane) (p : ℕ) (hp : d.process.getD p false = false) :
    frReuse d.process (centerFrame frames) p = some (centerFrame frames) ∧
    p ∉ blendedPlaneList d (centerFrame frames).format ∧
    ∀ out, readyPhase d frames fresh = .ok out →
      out.plane p = (centerFrame frames).plane p := by
  refine ⟨by simp only [frReuse]; rw [hp]; simp, ?_, ?_⟩
  · intro hmem
    have := (List.mem_filter.mp hmem).2
    rw [hp] at this
    exact Bool.false_ne_true this
  · intro out hout
    rw [readyPhase] at hout
    rw [planeLoop_preserves d frames (centerFrame frames).format p hp _ _ out hout]
    simp only [newVideoFrame2, frReuse]
    rw [hp]
    simp

/-- Concrete instance of `unselected_plane_passthrough`: plane 1 unselected. -/
theorem unselected_plane_passthrough_witness :
    frReuse [true, false, true] (centerFrame [default]) 1 =
      some (centerFrame [default]) ∧
    1 ∉ blendedPlaneList ⟨none, [1], [true, false, true]⟩
        (centerFrame [default]).format ∧
    ∀ out, readyPhase ⟨none, [1], [true, false, true]⟩ [default]
        (fun _ => zeroPlane) = .ok out →
      out.plane 1 = (centerFrame [default]).plane 1 :=
  unselected_plane_passthrough ⟨none, [1], [true, false, true]⟩ [default]
    (fun _ => zeroPlane) 1 (by decide)

/-- Helper: when the delivered depth is neither 1 nor 2 bytes per sample and
some listed plane is selected, the plane loop fails with the fatal
diagnostic. -/
theorem planeLoop_fatal (d : FrameBlendData) (frames : List VSFrame)
    (fi : VSFormat) (hb1 : fi.bytesPerSample ≠ 1) (hb2 : fi.bytesPerSample ≠ 2) :
    ∀ (planes : List ℕ) (dst : VSFrame),
      (∃ q ∈ planes, d.process.getD q false = true) →
      planeLoop d frames fi planes dst = .error fatalMsg := by
  intro planes
  induction planes with
  | nil =>
      rintro dst ⟨q, hq, _⟩
      simp at hq
  | cons q' rest ih =>
      rintro dst ⟨q, hq, hsel⟩
      rw [planeLoop]
      by_cases hq' : d.process.getD q' false = true
      · rw [if_pos hq', if_neg hb1, if_neg hb2]
      · rw [if_neg hq']
        apply ih
        rcases List.mem_cons.mp hq with rfl | hmem
        · exact absurd hsel hq'
        · exact ⟨q, hmem, hsel⟩

/-- C7: when the delivered frame's bytes-per-sample is neither 1 nor 2 and at
least one of its planes is selected, the ready phase logs the fatal
diagnostic and returns a failure with no output frame. -/
theorem unsupported_depth_fails (d : FrameBlendData) (frames : List VSFrame)
    (fresh : ℕ → Plane) (p : ℕ)
    (hp : p < (centerFrame frames).format.numPlanes)
    (hsel : d.process.getD p false = true)
    (hb1 : (centerFrame frames).format.bytesPerSample ≠ 1)
    (hb2 : (centerFrame frames).format.bytesPerSample ≠ 2) :
    readyPhase d frames fresh = .error fatalMsg := by
  rw [readyPhase]
  exact planeLoop_fatal d frames (centerFrame frames).format hb1 hb2
    (List.range (centerFrame frames).format.numPlanes) _
    ⟨p, List.mem_range.mpr hp, hsel⟩

/-- Concrete instance of `unsupported_depth_fails`: a 4-byte (32-bit) frame
with plane 0 selected. -/
theorem unsupported_depth_fails_witness :
    readyPhase ⟨some ⟨3, 32, 4⟩, [1], [true, true, true]⟩
      [⟨⟨3, 32, 4⟩, fun _ => zeroPlane⟩] (fun _ => zeroPlane) = .error fatalMsg :=
  unsupported_depth_fails ⟨some ⟨3, 32, 4⟩, [1], [true, true, true]⟩
    [⟨⟨3, 32, 4⟩, fun _ => zeroPlane⟩] (fun _ => zeroPlane) 0
    (by decide) (by decide) (by decide) (by decide)

/-- The hardcoded capacity of the `srcpp` array: `const T* srcpp[128];`
(main.cpp line 53). -/
def SRCPP_CAPACITY : ℕ := 128

/-- Indices written by the initial fill
`std::transform(srcs, srcs + numSrcs, srcpp, ...)` (main.cpp lines 56-58). -/
def fillAccesses (numSrcs : ℕ) : List ℕ := List.range numSrcs

/-- Indices read by one pixel's accumulation loop `srcpp[i]` for
`i < numSrcs` (main.cpp lines 67-70). -/
def pixelAccesses (numSrcs : ℕ) : List ℕ := List.range numSrcs

/-- Indices read and written by the per-row advance
`std::transform(srcpp, srcpp + numSrcs, srcpp, ...)` (main.cpp line 77). -/
def rowShiftAccesses (numSrcs : ℕ) : List ℕ := List.range numSrcs

/-- Every index used on `srcpp` during one plane blend: the initial fill,
then for each row all pixels' reads followed by the row advance. -/
def allSrcppAccesses (numSrcs width height : ℕ) : List ℕ :=
  fillAccesses numSrcs ++
    (List.range height).flatMap (fun _h =>
      (List.range width).flatMap (fun _w => pixelAccesses numSrcs) ++
        rowShiftAccesses numSrcs)

/-- C9: all accesses to the 128-entry `srcpp` array during a plane blend are
in bounds if and only if the weight count (`numSrcs`) is at most 128; in
particular under `numSrcs ≤ 128` every fill, per-pixel and per-row index
stays below the capacity. -/
theorem srcpp_accesses_in_bounds (numSrcs width height : ℕ) :
    (∀ j ∈ allSrcppAccesses numSrcs width height, j < SRCPP_CAPACITY) ↔
      numSrcs ≤ SRCPP_CAPACITY := by
  constructor
  · intro h
    by_contra hgt
    push_neg at hgt
    have hmem : SRCPP_CAPACITY ∈ allSrcppAccesses numSrcs width height :=
      List.mem_append_left _ (List.mem_range.mpr hgt)
    exact absurd (h _ hmem) (lt_irrefl _)
  · intro hle j hj
    have hj' : j < numSrcs := by
      rcases List.mem_append.mp hj with h1 | h2
      · exact List.mem_range.mp h1
      · rcases List.mem_flatMap.mp h2 with ⟨a, _, hmem⟩
        rcases List.mem_append.mp hmem with h3 | h4
        · rcases List.mem_flatMap.mp h3 with ⟨b, _, hmem2⟩
          exact List.mem_range.mp hmem2
        · exact List.mem_range.mp h4
    omega

/-- Concrete instance of `srcpp_accesses_in_bounds`: three weights on a 2×2
plane stay within the 128-entry capacity. -/
theorem srcpp_accesses_in_bounds_witness :
    ∀ j ∈ allSrcppAccesses 3 2 2, j < SRCPP_CAPACITY :=
  (srcpp_accesses_in_bounds 3 2 2).mpr (by decide)

/-- The format's clamp ceiling `(1U << f.bitsPerSample) - 1`. -/
def formatMaxVal (f : VSFormat) : ℤ := unsignedMaxVal f.bitsPerSample

/-- The clamp ceiling of main.cpp line 62, read through the possibly null
static format pointer `d->vi.format`: `none` models the null dereference of
a variable-format clip. -/
def maxValOfData (d : FrameBlendData) : Option ℤ := d.viFormat.map formatMaxVal

/-- The sample width (in bits) selected by the dispatch on the delivered
frame's `bytesPerSample` (main.cpp lines 119-124); `none` is the fatal
branch. -/
def dispatchBits (fi : VSFormat) : Option ℕ :=
  if fi.bytesPerSample = 1 then some 8
  else if fi.bytesPerSample = 2 then some 16
  else none

/-- C10: the blend's clamp ceiling is well-defined exactly when the stored
static format descriptor is non-null, and when the static format is known
and the delivered frame's format agrees with it, the ceiling computed from
the static format is the one the delivered format gives, the two bit depths
coincide, and the dispatch inspects the same byte width. -/
theorem depth_sources_coincide :
    (∀ d : FrameBlendData, (maxValOfData d).isSome ↔ d.viFormat ≠ none) ∧
    (∀ (d : FrameBlendData) (f : VSFormat) (center : VSFrame),
      d.viFormat = some f → center.format = f →
      maxValOfData d = some (formatMaxVal center.format) ∧
      staticBits d = center.format.bitsPerSample ∧
      dispatchBits center.format = dispatchBits f) := by
  constructor
  · intro d
    cases hd : d.viFormat <;> simp [maxValOfData, hd]
  · intro d f center h1 h2
    refine ⟨?_, ?_, ?_⟩
    · rw [maxValOfData, h1, h2]
      rfl
    · rw [staticBits, h1, h2]
    · rw [h2]

/-- Concrete instance of `depth_sources_coincide`: an 8-bit three-plane
format stored statically and delivered unchanged. -/
theorem depth_sources_coincide_witness :
    maxValOfData ⟨some ⟨3, 8, 1⟩, [1], [true, true, true]⟩ =
      some (formatMaxVal (VSFrame.format ⟨⟨3, 8, 1⟩, fun _ => zeroPlane⟩)) ∧
    staticBits ⟨some ⟨3, 8, 1⟩, [1], [true, true, true]⟩ =
      (VSFrame.format ⟨⟨3, 8, 1⟩, fun _ => zeroPlane⟩).bitsPerSample ∧
    dispatchBits (VSFrame.format ⟨⟨3, 8, 1⟩, fun _ => zeroPlane⟩) =
      dispatchBits ⟨3, 8, 1⟩ :=
  depth_sources_coincide.2 ⟨some ⟨3, 8, 1⟩, [1], [true, true, true]⟩ ⟨3, 8, 1⟩
    ⟨⟨3, 8, 1⟩, fun _ => zeroPlane⟩ rfl rfl

/-- Splitting a character list at a separator character. -/
def splitChar (c : Char) : List Char → List Char → List (List Char)
  | [], acc => [acc.reverse]
  | x :: rest, acc =>
    if x = c then acc.reverse :: splitChar c rest []
    else splitChar c rest (x :: acc)

/-- The argument-declaration string passed to `registerFunc` (main.cpp line
193): `"clip:clip;weights:float[]"`. -/
def registerArgs : List Char := "clip:clip;weights:float[]".toList

/-- The argument names declared by the registration string: the text before
the first `:` of each `;`-separated declaration. -/
def registeredArgNames : List (List Char) :=
  (splitChar ';' registerArgs []).map (fun s => s.takeWhile (fun ch => ch ≠ ':'))

/-- C8 (refuting theorem): the registered filter interface declares exactly
the argument names `clip` and `weights`; no `planes` argument is declared,
so a plane-index list cannot be supplied through the registered interface
even though `getPlanesArg` is written to read one. -/
theorem planes_argument_not_registered :
    registeredArgNames = ["clip".toList, "weights".toList] ∧
    "planes".toList ∉ registeredArgNames := by
  constructor
  · rfl
  · decide

end FrameBlender
